import Mathlib

/-!
Verification of the fractal-slicer-4D lattice generator.

The repository holds two near-identical Rust programs:

* `src/fractal_slicer_4_d/src/main.rs` — the membership predicate
  `is_condition_met` compares `(v % 3.0 - 1.0).abs() < f64::EPSILON`
  (an epsilon tolerance), and the program has a vertex-expansion stage
  `generate_vertices`;
* `src/src/main.rs` — the predicate compares `v % 3.0 == 1.0` exactly and
  there is no vertex stage.

All coordinates fed to this code are non-negative integers (the generator
enumerates `0..3^n` and casts to `f64`).  On non-negative integer-valued
doubles in the exact range, `% 3.0` and `(· / 3.0).floor()` are exact: the
former returns the integer `v mod 3` (a value in {0, 1, 2}) and the latter
the integer `v div 3`.  The embedding therefore works on `ℕ` coordinates,
carries the two float comparisons out exactly over `ℚ` (the compared values
are exactly representable, so `f64` comparison agrees with the rational
one), and uses natural division for the floor-divide step.

The `while` loop of `keep_point` is modelled with explicit fuel
(`keepPointLoop`); `i + j + k` units of fuel are enough, and the
fuel-stability lemmas below express termination of the loop.
-/

/-- Exact value of the f64 expression `v % 3.0` for a non-negative
integer-valued coordinate `v`: the integer `v mod 3` viewed in `ℚ`. -/
def fmod3 (v : ℕ) : ℚ := ((v % 3 : ℕ) : ℚ)

/-- Exact value of `f64::EPSILON`, i.e. `2⁻⁵²`. -/
def error_margin : ℚ := 1 / 2 ^ 52

/-- Embedding of `is_condition_met` from `src/fractal_slicer_4_d/src/main.rs`
(lines 11–20): some pair among (i, j, k) has both members within
`error_margin` of 1 after `% 3.0`. -/
def is_condition_met (i j k : ℕ) : Bool :=
  (decide (|fmod3 i - 1| < error_margin) && decide (|fmod3 j - 1| < error_margin))
    || (decide (|fmod3 i - 1| < error_margin) && decide (|fmod3 k - 1| < error_margin))
    || (decide (|fmod3 j - 1| < error_margin) && decide (|fmod3 k - 1| < error_margin))

/-- Embedding of `is_condition_met` from `src/src/main.rs` (lines 10–18):
the same predicate with exact float equality `v % 3.0 == 1.0`. -/
def is_condition_met_exact (i j k : ℕ) : Bool :=
  (decide (fmod3 i = 1) && decide (fmod3 j = 1))
    || (decide (fmod3 i = 1) && decide (fmod3 k = 1))
    || (decide (fmod3 j = 1) && decide (fmod3 k = 1))

/-- Computational (kernel-evaluable) form of the predicate, used to evaluate
the program on concrete inputs; proved equal to both source forms below. -/
def is_condition_met_nat (i j k : ℕ) : Bool :=
  (i % 3 == 1 && j % 3 == 1)
    || (i % 3 == 1 && k % 3 == 1)
    || (j % 3 == 1 && k % 3 == 1)

/-- Embedding of `are_at_least_two_positive` (both sources): some pair among
(i, j, k) is componentwise strictly positive. -/
def are_at_least_two_positive (i j k : ℕ) : Bool :=
  (decide (0 < i) && decide (0 < j))
    || (decide (0 < i) && decide (0 < k))
    || (decide (0 < j) && decide (0 < k))

/-- Fuel-indexed embedding of the `while` loop of `keep_point`
(`src/fractal_slicer_4_d/src/main.rs` lines 32–46): while at least two
coordinates are positive, reject if the exclusion predicate holds, else
floor-divide all three coordinates by 3.  When fuel runs out the loop is
considered finished (fuel `i + j + k` is proved sufficient below). -/
def keepPointLoop (fuel i j k : ℕ) : Bool :=
  match fuel with
  | 0 => true
  | f + 1 =>
    if are_at_least_two_positive i j k then
      if is_condition_met i j k then false
      else keepPointLoop f (i / 3) (j / 3) (k / 3)
    else true

/-- Embedding of `keep_point` from `src/fractal_slicer_4_d/src/main.rs`:
run the loop with sufficient fuel. -/
def keep_point (i j k : ℕ) : Bool := keepPointLoop (i + j + k) i j k

/-- The loop of `keep_point` from `src/src/main.rs` (lines 30–45), which uses
the exact-equality predicate. -/
def keepPointLoopExact (fuel i j k : ℕ) : Bool :=
  match fuel with
  | 0 => true
  | f + 1 =>
    if are_at_least_two_positive i j k then
      if is_condition_met_exact i j k then false
      else keepPointLoopExact f (i / 3) (j / 3) (k / 3)
    else true

/-- Embedding of `keep_point` from `src/src/main.rs`. -/
def keep_point_exact (i j k : ℕ) : Bool := keepPointLoopExact (i + j + k) i j k

/-- Computational form of the loop, on `is_condition_met_nat`. -/
def keepPointLoopNat (fuel i j k : ℕ) : Bool :=
  match fuel with
  | 0 => true
  | f + 1 =>
    if are_at_least_two_positive i j k then
      if is_condition_met_nat i j k then false
      else keepPointLoopNat f (i / 3) (j / 3) (k / 3)
    else true

/-- Computational form of `keep_point`. -/
def keep_point_nat (i j k : ℕ) : Bool := keepPointLoopNat (i + j + k) i j k

/-- Embedding of `generate_lattice_conc` (both sources, lines 49–68 resp.
47–66): enumerate the cube `[0, 3^n)³` in x-then-y-then-z scan order and
keep the points passing `keep_point`.  The rayon parallel iterator chain is
modelled by the equivalent sequential flatMap/map/filter pipeline; the
claims only concern the resulting sequence as a set. -/
def generate_lattice_conc (n : ℕ) : List (ℕ × ℕ × ℕ) :=
  ((List.range (3 ^ n)).flatMap fun x =>
    (List.range (3 ^ n)).flatMap fun y =>
      (List.range (3 ^ n)).map fun z => (x, y, z)).filter
    fun p => keep_point p.1 p.2.1 p.2.2

/-! Basic facts relating the three forms of the predicate. -/

lemma fmod3_cases (v : ℕ) : fmod3 v = 0 ∨ fmod3 v = 1 ∨ fmod3 v = 2 := by
  have h : v % 3 = 0 ∨ v % 3 = 1 ∨ v % 3 = 2 := by omega
  rcases h with h | h | h <;> simp [fmod3, h]

lemma eps_test_iff (v : ℕ) : |fmod3 v - 1| < error_margin ↔ v % 3 = 1 := by
  have h : v % 3 = 0 ∨ v % 3 = 1 ∨ v % 3 = 2 := by omega
  rcases h with h | h | h <;> simp [fmod3, h, error_margin] <;> norm_num

lemma exact_test_iff (v : ℕ) : fmod3 v = 1 ↔ v % 3 = 1 := by
  constructor
  · intro h
    have := fmod3_cases v
    simp only [fmod3] at h
    exact_mod_cast h
  · intro h
    simp [fmod3, h]

lemma eps_test_eq_nat (v : ℕ) :
    decide (|fmod3 v - 1| < error_margin) = (v % 3 == 1) := by
  rcases Decidable.em (v % 3 = 1) with h | h
  · simp [eps_test_iff, h]
  · simp [eps_test_iff, h, Nat.beq_eq_true_eq]

lemma exact_test_eq_nat (v : ℕ) :
    decide (fmod3 v = 1) = (v % 3 == 1) := by
  rcases Decidable.em (v % 3 = 1) with h | h
  · simp [exact_test_iff, h]
  · simp [exact_test_iff, h, Nat.beq_eq_true_eq]

lemma is_condition_met_eq_nat (i j k : ℕ) :
    is_condition_met i j k = is_condition_met_nat i j k := by
  simp only [is_condition_met, is_condition_met_nat, eps_test_eq_nat]

lemma is_condition_met_exact_eq_nat (i j k : ℕ) :
    is_condition_met_exact i j k = is_condition_met_nat i j k := by
  simp only [is_condition_met_exact, is_condition_met_nat, exact_test_eq_nat]

lemma keepPointLoop_eq_nat (fuel : ℕ) :
    ∀ i j k, keepPointLoop fuel i j k = keepPointLoopNat fuel i j k := by
  induction fuel with
  | zero => intro i j k; rfl
  | succ f ih =>
    intro i j k
    simp only [keepPointLoop, keepPointLoopNat, is_condition_met_eq_nat, ih]

lemma keepPointLoopExact_eq_nat (fuel : ℕ) :
    ∀ i j k, keepPointLoopExact fuel i j k = keepPointLoopNat fuel i j k := by
  induction fuel with
  | zero => intro i j k; rfl
  | succ f ih =>
    intro i j k
    simp only [keepPointLoopExact, keepPointLoopNat, is_condition_met_exact_eq_nat, ih]

lemma keep_point_eq_nat (i j k : ℕ) : keep_point i j k = keep_point_nat i j k :=
  keepPointLoop_eq_nat _ i j k

lemma keep_point_exact_eq_nat (i j k : ℕ) :
    keep_point_exact i j k = keep_point_nat i j k :=
  keepPointLoopExact_eq_nat _ i j k

/-! Fuel stability: `i + j + k` units of fuel are enough, and any larger
amount gives the same answer — the loop terminates. -/

lemma guard_iff (i j k : ℕ) :
    are_at_least_two_positive i j k = true ↔
      (0 < i ∧ 0 < j) ∨ (0 < i ∧ 0 < k) ∨ (0 < j ∧ 0 < k) := by
  simp [are_at_least_two_positive]
  tauto

lemma guard_step_lt (i j k : ℕ) (h : are_at_least_two_positive i j k = true) :
    i / 3 + j / 3 + k / 3 < i + j + k := by
  rw [guard_iff] at h
  omega

lemma keepPointLoopNat_congr :
    ∀ f g i j k, i + j + k ≤ f → i + j + k ≤ g →
      keepPointLoopNat f i j k = keepPointLoopNat g i j k := by
  intro f
  induction f with
  | zero =>
    intro g i j k hf hg
    have hi : i = 0 := by omega
    have hj : j = 0 := by omega
    have hk : k = 0 := by omega
    subst hi; subst hj; subst hk
    cases g with
    | zero => rfl
    | succ g => simp [keepPointLoopNat, are_at_least_two_positive]
  | succ f ih =>
    intro g i j k hf hg
    cases g with
    | zero =>
      have hi : i = 0 := by omega
      have hj : j = 0 := by omega
      have hk : k = 0 := by omega
      subst hi; subst hj; subst hk
      simp [keepPointLoopNat, are_at_least_two_positive]
    | succ g =>
      simp only [keepPointLoopNat]
      rcases hguard : are_at_least_two_positive i j k with hg' | hg'
      · simp
      · have hlt := guard_step_lt i j k hguard
        simp only [if_true]
        rcases is_condition_met_nat i j k with _ | _
        · simp only [Bool.false_eq_true, if_false]
          exact ih g (i / 3) (j / 3) (k / 3) (by omega) (by omega)
        · simp

lemma keepPointLoopNat_stable (fuel i j k : ℕ) (h : i + j + k ≤ fuel) :
    keepPointLoopNat fuel i j k = keep_point_nat i j k :=
  keepPointLoopNat_congr fuel (i + j + k) i j k h le_rfl

lemma keepPointLoop_of_guard_false (fuel i j k : ℕ)
    (h : are_at_least_two_positive i j k = false) :
    keepPointLoop fuel i j k = true := by
  cases fuel with
  | zero => rfl
  | succ f => simp [keepPointLoop, h]

/-! Permutation symmetry of the predicate, the guard and the loop. -/

lemma bool3_swap12 (a b c : Bool) :
    ((a && b) || (a && c) || (b && c)) = ((b && a) || (b && c) || (a && c)) := by
  cases a <;> cases b <;> cases c <;> rfl

lemma bool3_swap23 (a b c : Bool) :
    ((a && b) || (a && c) || (b && c)) = ((a && c) || (a && b) || (c && b)) := by
  cases a <;> cases b <;> cases c <;> rfl

lemma is_condition_met_nat_swap12 (i j k : ℕ) :
    is_condition_met_nat j i k = is_condition_met_nat i j k :=
  (bool3_swap12 (i % 3 == 1) (j % 3 == 1) (k % 3 == 1)).symm

lemma is_condition_met_nat_swap23 (i j k : ℕ) :
    is_condition_met_nat i k j = is_condition_met_nat i j k :=
  (bool3_swap23 (i % 3 == 1) (j % 3 == 1) (k % 3 == 1)).symm

lemma guard_swap12 (i j k : ℕ) :
    are_at_least_two_positive j i k = are_at_least_two_positive i j k :=
  (bool3_swap12 (decide (0 < i)) (decide (0 < j)) (decide (0 < k))).symm

lemma guard_swap23 (i j k : ℕ) :
    are_at_least_two_positive i k j = are_at_least_two_positive i j k :=
  (bool3_swap23 (decide (0 < i)) (decide (0 < j)) (decide (0 < k))).symm

lemma keepPointLoopNat_swap12 (fuel : ℕ) :
    ∀ i j k, keepPointLoopNat fuel j i k = keepPointLoopNat fuel i j k := by
  induction fuel with
  | zero => intro i j k; rfl
  | succ f ih =>
    intro i j k
    simp only [keepPointLoopNat, guard_swap12, is_condition_met_nat_swap12, ih]

lemma keepPointLoopNat_swap23 (fuel : ℕ) :
    ∀ i j k, keepPointLoopNat fuel i k j = keepPointLoopNat fuel i j k := by
  induction fuel with
  | zero => intro i j k; rfl
  | succ f ih =>
    intro i j k
    simp only [keepPointLoopNat, guard_swap23, is_condition_met_nat_swap23, ih]

lemma keep_point_nat_swap12 (i j k : ℕ) :
    keep_point_nat j i k = keep_point_nat i j k := by
  show keepPointLoopNat (j + i + k) j i k = keep_point_nat i j k
  rw [show j + i + k = i + j + k by omega, keepPointLoopNat_swap12]
  rfl

lemma keep_point_nat_swap23 (i j k : ℕ) :
    keep_point_nat i k j = keep_point_nat i j k := by
  show keepPointLoopNat (i + k + j) i k j = keep_point_nat i j k
  rw [show i + k + j = i + j + k by omega, keepPointLoopNat_swap23]
  rfl

/-! Claims about the membership predicate and the guard. -/

/-- C2: for every triple (i, j, k) of non-negative integer coordinates, the
exclusion predicate `is_condition_met` is true exactly when some pair among
(i, j, k) has both members congruent to 1 modulo 3. -/
theorem C2_is_condition_met_iff (i j k : ℕ) :
    is_condition_met i j k = true ↔
      (i % 3 = 1 ∧ j % 3 = 1) ∨ (i % 3 = 1 ∧ k % 3 = 1) ∨ (j % 3 = 1 ∧ k % 3 = 1) := by
  simp [is_condition_met, eps_test_iff]
  tauto

/-- C3: when fewer than two coordinates are strictly positive (that is, the
majority-positive guard is false), the exclusion predicate is false and
`keep_point` accepts the point immediately — the guard is a sound
termination condition. -/
theorem C3_guard_sound (i j k : ℕ)
    (h : are_at_least_two_positive i j k = false) :
    is_condition_met i j k = false ∧ keep_point i j k = true := by
  have hg : ¬((0 < i ∧ 0 < j) ∨ (0 < i ∧ 0 < k) ∨ (0 < j ∧ 0 < k)) := by
    rw [← guard_iff, h]
    simp
  refine ⟨?_, keepPointLoop_of_guard_false _ i j k h⟩
  rw [is_condition_met_eq_nat]
  simp only [is_condition_met_nat, Bool.or_eq_false_iff, Bool.and_eq_false_iff,
    beq_eq_false_iff_ne, ne_eq]
  omega

theorem C3_witness :
    are_at_least_two_positive 0 0 5 = false ∧
      (is_condition_met 0 0 5 = false ∧ keep_point 0 0 5 = true) :=
  ⟨by decide, C3_guard_sound 0 0 5 (by decide)⟩

/-- C5: on non-negative integer coordinates exactly representable in double
precision, the epsilon-tolerance variant of the membership test
(`keep_point`, from `src/fractal_slicer_4_d`) and the exact-equality variant
(`keep_point_exact`, from `src/src`) agree. -/
theorem C5_eps_exact_agree (x y z : ℕ)
    (_hx : x < 2 ^ 53) (_hy : y < 2 ^ 53) (_hz : z < 2 ^ 53) :
    keep_point x y z = keep_point_exact x y z := by
  rw [keep_point_eq_nat, keep_point_exact_eq_nat]

theorem C5_witness :
    4 < 2 ^ 53 ∧ 5 < 2 ^ 53 ∧ 3 < 2 ^ 53 ∧ keep_point 4 5 3 = keep_point_exact 4 5 3 :=
  ⟨by decide, by decide, by decide,
    C5_eps_exact_agree 4 5 3 (by decide) (by decide) (by decide)⟩

/-- C6: the `while` loop of `keep_point` terminates on every point with
non-negative integer coordinates: `i + j + k` iterations always suffice, and
running the loop with any fuel at least `i + j + k` yields the fixed final
answer `keep_point i j k`, so `keep_point` is a total function. -/
theorem C6_keep_point_terminates (i j k fuel : ℕ) (h : i + j + k ≤ fuel) :
    keepPointLoop fuel i j k = keep_point i j k := by
  rw [keepPointLoop_eq_nat, keep_point_eq_nat]
  exact keepPointLoopNat_stable fuel i j k h

theorem C6_witness :
    2 + 2 + 2 ≤ 10 ∧ keepPointLoop 10 2 2 2 = keep_point 2 2 2 :=
  ⟨by decide, C6_keep_point_terminates 2 2 2 10 (by decide)⟩

/-- C9: `keep_point` accepts (2, 2, 2) and rejects (4, 5, 3), matching the
repository's unit tests. -/
theorem C9_keep_point_values :
    keep_point 2 2 2 = true ∧ keep_point 4 5 3 = false := by
  rw [keep_point_eq_nat, keep_point_eq_nat]
  decide

/-- C10: `keep_point` is symmetric in its three coordinates: every
permutation of (x, y, z) yields the same result. -/
theorem C10_keep_point_symmetric (x y z : ℕ) :
    keep_point y x z = keep_point x y z ∧
      keep_point x z y = keep_point x y z ∧
      keep_point z y x = keep_point x y z ∧
      keep_point y z x = keep_point x y z ∧
      keep_point z x y = keep_point x y z := by
  simp only [keep_point_eq_nat]
  refine ⟨keep_point_nat_swap12 x y z, keep_point_nat_swap23 x y z, ?_, ?_, ?_⟩
  · rw [keep_point_nat_swap12, keep_point_nat_swap23, keep_point_nat_swap12]
  · rw [keep_point_nat_swap23, keep_point_nat_swap12]
  · rw [keep_point_nat_swap12, keep_point_nat_swap23]

/-! Claims about the lattice generator. -/

/-- C1: the sequence produced by `generate_lattice_conc n` contains exactly
the points (x, y, z) with all coordinates in `[0, 3^n)` that pass
`keep_point`; membership is fully determined by `n`. -/
theorem C1_generate_lattice_conc_mem (n x y z : ℕ) :
    (x, y, z) ∈ generate_lattice_conc n ↔
      x < 3 ^ n ∧ y < 3 ^ n ∧ z < 3 ^ n ∧ keep_point x y z = true := by
  simp only [generate_lattice_conc, List.mem_filter, List.mem_flatMap, List.mem_map,
    List.mem_range, Prod.mk.injEq]
  constructor
  · rintro ⟨⟨a, ha, b, hb, c, hc, rfl, rfl, rfl⟩, hkeep⟩
    exact ⟨ha, hb, hc, hkeep⟩
  · rintro ⟨hx, hy, hz, hkeep⟩
    exact ⟨⟨x, hx, y, hy, z, hz, rfl, rfl, rfl⟩, hkeep⟩

set_option maxRecDepth 100000 in
/-- C4: the generator returns 20^n points for n = 1 and n = 2; in particular
the 27 candidates of the n = 1 cube yield exactly 20 kept points. -/
theorem C4_lattice_counts :
    (generate_lattice_conc 1).length = 20 ^ 1 ∧
      (generate_lattice_conc 2).length = 20 ^ 2 := by
  have hfun : (fun p : ℕ × ℕ × ℕ => keep_point p.1 p.2.1 p.2.2)
      = fun p : ℕ × ℕ × ℕ => keep_point_nat p.1 p.2.1 p.2.2 :=
    funext fun p => keep_point_eq_nat p.1 p.2.1 p.2.2
  constructor <;> (simp only [generate_lattice_conc, hfun]; rfl)

/-! The vertex-expansion stage (`src/fractal_slicer_4_d/src/main.rs`,
lines 70–115).  Vertex coordinates are half-integers, exactly representable
as doubles; they are modelled in `ℚ`. -/

/-- Body of the `for` loop of `generate_vertices`: insert the eight
half-offset corners of `p` into the accumulated vertex set, in the source's
insertion order (the innermost insert happens first). -/
def insertCorners (vertices : Finset (ℚ × ℚ × ℚ)) (p : ℕ × ℕ × ℕ) :
    Finset (ℚ × ℚ × ℚ) :=
  insert ((p.1 : ℚ) - 1/2, (p.2.1 : ℚ) - 1/2, (p.2.2 : ℚ) - 1/2)
    (insert ((p.1 : ℚ) - 1/2, (p.2.1 : ℚ) - 1/2, (p.2.2 : ℚ) + 1/2)
      (insert ((p.1 : ℚ) - 1/2, (p.2.1 : ℚ) + 1/2, (p.2.2 : ℚ) - 1/2)
        (insert ((p.1 : ℚ) + 1/2, (p.2.1 : ℚ) - 1/2, (p.2.2 : ℚ) - 1/2)
          (insert ((p.1 : ℚ) - 1/2, (p.2.1 : ℚ) + 1/2, (p.2.2 : ℚ) + 1/2)
            (insert ((p.1 : ℚ) + 1/2, (p.2.1 : ℚ) - 1/2, (p.2.2 : ℚ) + 1/2)
              (insert ((p.1 : ℚ) + 1/2, (p.2.1 : ℚ) + 1/2, (p.2.2 : ℚ) - 1/2)
                (insert ((p.1 : ℚ) + 1/2, (p.2.1 : ℚ) + 1/2, (p.2.2 : ℚ) + 1/2)
                  vertices)))))))

/-- Embedding of `generate_vertices`: fold the eight-corner insertion over
the kept lattice points, starting from the empty set (the Rust `HashSet`
is modelled as a `Finset`). -/
def generate_vertices (lattice : List (ℕ × ℕ × ℕ)) : Finset (ℚ × ℚ × ℚ) :=
  lattice.foldl insertCorners ∅

/-- The eight corner offsets (±0.5, ±0.5, ±0.5). -/
def cornerOffsets : Finset (ℚ × ℚ × ℚ) :=
  {(1/2, 1/2, 1/2), (1/2, 1/2, -1/2), (1/2, -1/2, 1/2), (-1/2, 1/2, 1/2),
   (1/2, -1/2, -1/2), (-1/2, 1/2, -1/2), (-1/2, -1/2, 1/2), (-1/2, -1/2, -1/2)}

/-- The eight corners of the unit cube centred at lattice point `p`. -/
def corners (p : ℕ × ℕ × ℕ) : Finset (ℚ × ℚ × ℚ) :=
  cornerOffsets.image fun o =>
    ((p.1 : ℚ) + o.1, (p.2.1 : ℚ) + o.2.1, (p.2.2 : ℚ) + o.2.2)

/-- Signed half offset: +0.5 or −0.5 according to a sign bit. -/
def signedHalf : Bool → ℚ
  | true => 1/2
  | false => -1/2

lemma mem_insertCorners (s : Finset (ℚ × ℚ × ℚ)) (p : ℕ × ℕ × ℕ)
    (v : ℚ × ℚ × ℚ) :
    v ∈ insertCorners s p ↔ v ∈ corners p ∨ v ∈ s := by
  simp only [insertCorners, corners, cornerOffsets, Finset.mem_insert,
    Finset.mem_image, Finset.mem_singleton, sub_eq_add_neg, neg_div]
  constructor
  · rintro (h | h | h | h | h | h | h | h | h)
    · exact Or.inl ⟨(-(1/2), -(1/2), -(1/2)), by norm_num, by rw [h]⟩
    · exact Or.inl ⟨(-(1/2), -(1/2), 1/2), by norm_num, by rw [h]⟩
    · exact Or.inl ⟨(-(1/2), 1/2, -(1/2)), by norm_num, by rw [h]⟩
    · exact Or.inl ⟨(1/2, -(1/2), -(1/2)), by norm_num, by rw [h]⟩
    · exact Or.inl ⟨(-(1/2), 1/2, 1/2), by norm_num, by rw [h]⟩
    · exact Or.inl ⟨(1/2, -(1/2), 1/2), by norm_num, by rw [h]⟩
    · exact Or.inl ⟨(1/2, 1/2, -(1/2)), by norm_num, by rw [h]⟩
    · exact Or.inl ⟨(1/2, 1/2, 1/2), by norm_num, by rw [h]⟩
    · exact Or.inr h
  · rintro (⟨o, ho, rfl⟩ | h)
    · rcases ho with h | h | h | h | h | h | h | h <;> subst h <;> norm_num
    · tauto

lemma mem_foldl_insertCorners (L : List (ℕ × ℕ × ℕ)) :
    ∀ (s : Finset (ℚ × ℚ × ℚ)) (v : ℚ × ℚ × ℚ),
      v ∈ L.foldl insertCorners s ↔ (∃ p ∈ L, v ∈ corners p) ∨ v ∈ s := by
  induction L with
  | nil => intro s v; simp
  | cons q L ih =>
    intro s v
    rw [List.foldl_cons, ih, mem_insertCorners]
    simp only [List.mem_cons]
    constructor
    · rintro (⟨p, hp, hv⟩ | h | h)
      · exact Or.inl ⟨p, Or.inr hp, hv⟩
      · exact Or.inl ⟨q, Or.inl rfl, h⟩
      · exact Or.inr h
    · rintro (⟨p, hp | hp, hv⟩ | h)
      · subst hp; exact Or.inr (Or.inl hv)
      · exact Or.inl ⟨p, hp, hv⟩
      · exact Or.inr (Or.inr h)

lemma mem_generate_vertices (L : List (ℕ × ℕ × ℕ)) (v : ℚ × ℚ × ℚ) :
    v ∈ generate_vertices L ↔ ∃ p ∈ L, v ∈ corners p := by
  rw [generate_vertices, mem_foldl_insertCorners]
  simp

lemma mem_corners (p : ℕ × ℕ × ℕ) (v : ℚ × ℚ × ℚ) :
    v ∈ corners p ↔
      ∃ s₁ s₂ s₃ : Bool,
        v = ((p.1 : ℚ) + signedHalf s₁, (p.2.1 : ℚ) + signedHalf s₂,
          (p.2.2 : ℚ) + signedHalf s₃) := by
  constructor
  · intro hv
    simp only [corners, cornerOffsets, Finset.mem_image, Finset.mem_insert,
      Finset.mem_singleton] at hv
    obtain ⟨o, ho, rfl⟩ := hv
    rcases ho with h | h | h | h | h | h | h | h <;> subst h
    · exact ⟨true, true, true, by norm_num [signedHalf]⟩
    · exact ⟨true, true, false, by norm_num [signedHalf]⟩
    · exact ⟨true, false, true, by norm_num [signedHalf]⟩
    · exact ⟨false, true, true, by norm_num [signedHalf]⟩
    · exact ⟨true, false, false, by norm_num [signedHalf]⟩
    · exact ⟨false, true, false, by norm_num [signedHalf]⟩
    · exact ⟨false, false, true, by norm_num [signedHalf]⟩
    · exact ⟨false, false, false, by norm_num [signedHalf]⟩
  · rintro ⟨s₁, s₂, s₃, rfl⟩
    simp only [corners, cornerOffsets, Finset.mem_image]
    refine ⟨(signedHalf s₁, signedHalf s₂, signedHalf s₃), ?_, rfl⟩
    cases s₁ <;> cases s₂ <;> cases s₃ <;>
      simp [signedHalf, Finset.mem_insert]

/-- C7: the vertex set returned by `generate_vertices` consists exactly of
the points obtained from some input lattice point by adding one of the eight
sign combinations of (±0.5, ±0.5, ±0.5). -/
theorem C7_generate_vertices_mem (L : List (ℕ × ℕ × ℕ)) (v : ℚ × ℚ × ℚ) :
    v ∈ generate_vertices L ↔
      ∃ p ∈ L, ∃ s₁ s₂ s₃ : Bool,
        v = ((p.1 : ℚ) + signedHalf s₁, (p.2.1 : ℚ) + signedHalf s₂,
          (p.2.2 : ℚ) + signedHalf s₃) := by
  simp only [mem_generate_vertices, mem_corners]

lemma card_cornerOffsets : cornerOffsets.card = 8 := by
  norm_num [cornerOffsets]

lemma corners_inj (p : ℕ × ℕ × ℕ) :
    Function.Injective fun o : ℚ × ℚ × ℚ =>
      ((p.1 : ℚ) + o.1, (p.2.1 : ℚ) + o.2.1, (p.2.2 : ℚ) + o.2.2) := by
  rintro ⟨a₁, a₂, a₃⟩ ⟨b₁, b₂, b₃⟩ h
  simp only [Prod.mk.injEq] at h ⊢
  obtain ⟨h₁, h₂, h₃⟩ := h
  exact ⟨by linarith, by linarith, by linarith⟩

lemma card_corners (p : ℕ × ℕ × ℕ) : (corners p).card = 8 := by
  rw [corners, Finset.card_image_of_injective _ (corners_inj p),
    card_cornerOffsets]

lemma generate_vertices_eq_biUnion (L : List (ℕ × ℕ × ℕ)) :
    generate_vertices L = L.toFinset.biUnion corners := by
  ext v
  simp [mem_generate_vertices, Finset.mem_biUnion, List.mem_toFinset]

lemma card_generate_vertices_le (L : List (ℕ × ℕ × ℕ)) :
    (generate_vertices L).card ≤ 8 * L.length := by
  rw [generate_vertices_eq_biUnion]
  calc (L.toFinset.biUnion corners).card
      ≤ ∑ p ∈ L.toFinset, (corners p).card := Finset.card_biUnion_le
    _ = ∑ _p ∈ L.toFinset, 8 := by simp [card_corners]
    _ = 8 * L.toFinset.card := by
        rw [Finset.sum_const, smul_eq_mul, mul_comm]
    _ ≤ 8 * L.length := by
        have := L.toFinset_card_le
        omega

lemma generate_vertices_pair (p q : ℕ × ℕ × ℕ) :
    generate_vertices [p, q] = corners p ∪ corners q := by
  ext v
  simp [mem_generate_vertices]

lemma generate_vertices_single (p : ℕ × ℕ × ℕ) :
    generate_vertices [p] = corners p := by
  ext v
  simp [mem_generate_vertices]

/-- Two lattice points that differ by exactly one along one axis and agree
on the other two axes, in the stated direction. -/
def axisStep (p q : ℕ × ℕ × ℕ) : Prop :=
  (q.1 = p.1 + 1 ∧ q.2.1 = p.2.1 ∧ q.2.2 = p.2.2)
    ∨ (q.2.1 = p.2.1 + 1 ∧ q.1 = p.1 ∧ q.2.2 = p.2.2)
    ∨ (q.2.2 = p.2.2 + 1 ∧ q.1 = p.1 ∧ q.2.1 = p.2.1)

/-- Axis adjacency (face-sharing cells): one coordinate differs by one,
the other two agree. -/
def axisAdjacent (p q : ℕ × ℕ × ℕ) : Prop := axisStep p q ∨ axisStep q p

lemma axisStep_shared_corner (p q : ℕ × ℕ × ℕ) (h : axisStep p q) :
    ∃ v, v ∈ corners p ∧ v ∈ corners q := by
  obtain ⟨p₁, p₂, p₃⟩ := p
  obtain ⟨q₁, q₂, q₃⟩ := q
  simp only [axisStep] at h
  rcases h with ⟨h₁, h₂, h₃⟩ | ⟨h₁, h₂, h₃⟩ | ⟨h₁, h₂, h₃⟩
  · refine ⟨((p₁ : ℚ) + 1/2, (p₂ : ℚ) + 1/2, (p₃ : ℚ) + 1/2),
      (mem_corners _ _).2 ⟨true, true, true, by norm_num [signedHalf]⟩,
      (mem_corners _ _).2 ⟨false, true, true, ?_⟩⟩
    simp only [signedHalf, Prod.mk.injEq]
    refine ⟨?_, ?_, ?_⟩ <;> (simp only [h₁, h₂, h₃]; try push_cast; try ring)
  · refine ⟨((p₁ : ℚ) + 1/2, (p₂ : ℚ) + 1/2, (p₃ : ℚ) + 1/2),
      (mem_corners _ _).2 ⟨true, true, true, by norm_num [signedHalf]⟩,
      (mem_corners _ _).2 ⟨true, false, true, ?_⟩⟩
    simp only [signedHalf, Prod.mk.injEq]
    refine ⟨?_, ?_, ?_⟩ <;> (simp only [h₁, h₂, h₃]; try push_cast; try ring)
  · refine ⟨((p₁ : ℚ) + 1/2, (p₂ : ℚ) + 1/2, (p₃ : ℚ) + 1/2),
      (mem_corners _ _).2 ⟨true, true, true, by norm_num [signedHalf]⟩,
      (mem_corners _ _).2 ⟨true, true, false, ?_⟩⟩
    simp only [signedHalf, Prod.mk.injEq]
    refine ⟨?_, ?_, ?_⟩ <;> (simp only [h₁, h₂, h₃]; try push_cast; try ring)

lemma axisAdjacent_shared_corner (p q : ℕ × ℕ × ℕ) (h : axisAdjacent p q) :
    ∃ v, v ∈ corners p ∧ v ∈ corners q := by
  rcases h with h | h
  · exact axisStep_shared_corner p q h
  · obtain ⟨v, h₁, h₂⟩ := axisStep_shared_corner q p h
    exact ⟨v, h₂, h₁⟩

lemma card_union_corners_lt (a b : ℕ × ℕ × ℕ) (v : ℚ × ℚ × ℚ)
    (hva : v ∈ corners a) (hvb : v ∈ corners b) :
    (corners a ∪ corners b).card ≤ 15 := by
  have h := Finset.card_union_add_card_inter (corners a) (corners b)
  have hpos : 0 < (corners a ∩ corners b).card :=
    Finset.card_pos.mpr ⟨v, Finset.mem_inter.mpr ⟨hva, hvb⟩⟩
  rw [card_corners, card_corners] at h
  omega

lemma card_eq_implies_disjoint_corners (L : List (ℕ × ℕ × ℕ))
    (heq : (generate_vertices L).card = 8 * L.length) :
    ∀ a ∈ L, ∀ b ∈ L, a ≠ b → ∀ v, v ∈ corners a → v ∉ corners b := by
  intro a ha b hb hne v hva hvb
  have hab : ({a, b} : Finset (ℕ × ℕ × ℕ)) ⊆ L.toFinset := by
    intro x hx
    rcases Finset.mem_insert.mp hx with h | h
    · subst h; exact List.mem_toFinset.mpr ha
    · rw [Finset.mem_singleton] at h; subst h; exact List.mem_toFinset.mpr hb
  have hpair : ({a, b} : Finset (ℕ × ℕ × ℕ)).card = 2 := by
    rw [Finset.card_insert_of_not_mem (by simp [hne]), Finset.card_singleton]
  have htc : 2 ≤ L.toFinset.card := by
    have := Finset.card_le_card hab
    omega
  have hsub : generate_vertices L ⊆
      (corners a ∪ corners b) ∪ (L.toFinset \ {a, b}).biUnion corners := by
    intro w hw
    rw [mem_generate_vertices] at hw
    obtain ⟨r, hr, hwr⟩ := hw
    rcases Decidable.em (r = a) with hra | hra
    · subst hra; exact Finset.mem_union_left _ (Finset.mem_union_left _ hwr)
    rcases Decidable.em (r = b) with hrb | hrb
    · subst hrb; exact Finset.mem_union_left _ (Finset.mem_union_right _ hwr)
    refine Finset.mem_union_right _ (Finset.mem_biUnion.mpr ⟨r, ?_, hwr⟩)
    rw [Finset.mem_sdiff]
    exact ⟨List.mem_toFinset.mpr hr, by simp [hra, hrb]⟩
  have h1 : (corners a ∪ corners b).card ≤ 15 :=
    card_union_corners_lt a b v hva hvb
  have h2 : ((L.toFinset \ {a, b}).biUnion corners).card ≤
      8 * (L.toFinset.card - 2) := by
    calc ((L.toFinset \ {a, b}).biUnion corners).card
        ≤ ∑ p ∈ L.toFinset \ {a, b}, (corners p).card := Finset.card_biUnion_le
      _ = 8 * (L.toFinset \ {a, b}).card := by
          simp [card_corners, Finset.sum_const, mul_comm]
      _ = 8 * (L.toFinset.card - 2) := by
          rw [Finset.card_sdiff hab, hpair]
  have h3 : (generate_vertices L).card ≤
      (corners a ∪ corners b).card + ((L.toFinset \ {a, b}).biUnion corners).card := by
    calc (generate_vertices L).card
        ≤ ((corners a ∪ corners b) ∪ (L.toFinset \ {a, b}).biUnion corners).card :=
          Finset.card_le_card hsub
      _ ≤ _ := Finset.card_union_le _ _
  have h4 : L.toFinset.card ≤ L.length := L.toFinset_card_le
  omega

/-- C8 (amended): the vertex set has at most 8 times as many elements as the
input sequence; equality forces every two distinct input points to share no
corner; a single input point yields exactly 8 vertices; and two axis-adjacent
input points yield strictly fewer than 16.  (The original claim's aside that
equality can hold only for a single isolated point is false: two input points
that are far enough apart also attain it, see the counterexample.) -/
theorem C8_vertex_count_amended (L : List (ℕ × ℕ × ℕ)) (s p q : ℕ × ℕ × ℕ)
    (hadj : axisAdjacent p q) :
    (generate_vertices L).card ≤ 8 * L.length ∧
      ((generate_vertices L).card = 8 * L.length →
        ∀ a ∈ L, ∀ b ∈ L, a ≠ b → ∀ v, v ∈ corners a → v ∉ corners b) ∧
      (generate_vertices [s]).card = 8 ∧
      (generate_vertices [p, q]).card < 16 := by
  refine ⟨card_generate_vertices_le L, card_eq_implies_disjoint_corners L, ?_, ?_⟩
  · rw [generate_vertices_single, card_corners]
  · obtain ⟨v, hvp, hvq⟩ := axisAdjacent_shared_corner p q hadj
    have h := card_union_corners_lt p q v hvp hvq
    rw [generate_vertices_pair]
    omega

theorem C8_witness :
    axisAdjacent (0, 0, 0) (1, 0, 0) ∧
      ((generate_vertices [(5, 5, 5)]).card ≤ 8 * [(5, 5, 5)].length ∧
        ((generate_vertices [(5, 5, 5)]).card = 8 * [(5, 5, 5)].length →
          ∀ a ∈ [(5, 5, 5)], ∀ b ∈ [(5, 5, 5)], a ≠ b →
            ∀ v, v ∈ corners a → v ∉ corners b) ∧
        (generate_vertices [(2, 2, 2)]).card = 8 ∧
        (generate_vertices [(0, 0, 0), (1, 0, 0)]).card < 16) :=
  ⟨Or.inl (Or.inl ⟨rfl, rfl, rfl⟩),
    C8_vertex_count_amended [(5, 5, 5)] (2, 2, 2) (0, 0, 0) (1, 0, 0)
      (Or.inl (Or.inl ⟨rfl, rfl, rfl⟩))⟩

lemma corners_disjoint_far :
    Disjoint (corners (0, 0, 0)) (corners (2, 0, 0)) := by
  rw [Finset.disjoint_left]
  intro w hw1 hw2
  rw [mem_corners] at hw1 hw2
  obtain ⟨a₁, a₂, a₃, rfl⟩ := hw1
  obtain ⟨b₁, b₂, b₃, hb⟩ := hw2
  have h1 : (0 : ℚ) + signedHalf a₁ = (2 : ℚ) + signedHalf b₁ := by
    have := congrArg Prod.fst hb
    simpa using this
  cases a₁ <;> cases b₁ <;> simp [signedHalf] at h1 <;> norm_num at h1

/-- C8 counterexample: the input `[(0,0,0), (2,0,0)]` has two points, not
one, and its vertex set attains the bound `8 × length` exactly — refuting
the aside that equality can hold only for a single isolated point. -/
theorem C8_counterexample :
    (generate_vertices [(0, 0, 0), (2, 0, 0)]).card
        = 8 * ([(0, 0, 0), (2, 0, 0)] : List (ℕ × ℕ × ℕ)).length ∧
      ([(0, 0, 0), (2, 0, 0)] : List (ℕ × ℕ × ℕ)).length ≠ 1 := by
  constructor
  · rw [generate_vertices_pair, Finset.card_union_of_disjoint corners_disjoint_far,
      card_corners, card_corners]
    rfl
  · simp
